import Mathlib

/-!
Verification of the column-normalization / validation / reorder / batch-merge
pipeline of `src/app.py` (CSV/Excel merger).

Strings are modelled as `List Char`.  The pandas header operations of
`main` (lines 100-104): `df.columns.str.strip()`,
`.str.replace(r"\s*-\s*", " - ", regex=True)`, `.str.lower()` are embedded
below as `pyStrip`, `hyphenSub` and `List.map Char.toLower`; the DataFrame
operations of lines 106-123 are embedded over a row-major `Frame` type.
-/

namespace App

/-- A column label / filename: a Python string, modelled as a list of
characters. -/
abbrev Label := List Char

/-- Whitespace as matched by Python's `str.strip` and the regex class `\s`
for the ASCII range: space, tab, newline, carriage return, vertical tab and
form feed.  (The source only ever meets ASCII labels; the Unicode-only
whitespace code points are out of scope of this embedding.) -/
def isSpace (c : Char) : Bool :=
  decide (c.toNat = 32 ∨ c.toNat = 9 ∨ c.toNat = 10 ∨ c.toNat = 13 ∨
    c.toNat = 11 ∨ c.toNat = 12)

/-- Leading-whitespace strip (left half of Python `str.strip`). -/
def stripLead (l : List Char) : List Char := l.dropWhile isSpace

/-- Trailing-whitespace strip (right half of Python `str.strip`). -/
def stripTrail (l : List Char) : List Char := (l.reverse.dropWhile isSpace).reverse

/-- Python `str.strip()`: drop leading and trailing whitespace. -/
def pyStrip (l : List Char) : List Char := stripTrail (stripLead l)

/-- The scanning core of `re.sub(r"\s*-\s*", " - ", s)`: Python's `re.sub`
scans left to right; at each position a (greedy, hence maximal) match
`\s*-\s*` is replaced by `" - "` and scanning resumes after the match,
otherwise one character is emitted verbatim.  `pending` holds a whitespace
run that has not yet been attributed (it is the candidate leading `\s*` of
the next match); `afterH` records that the run following the last replaced
hyphen is still being consumed (it belonged to that match's trailing `\s*`
and is dropped). -/
def hyphenSubGo (afterH : Bool) (pending : List Char) : List Char → List Char
  | [] => if afterH then [] else pending.reverse
  | c :: cs =>
    if isSpace c then hyphenSubGo afterH (c :: pending) cs
    else if c = '-' then ' ' :: '-' :: ' ' :: hyphenSubGo true [] cs
    else (if afterH then [] else pending.reverse) ++ c :: hyphenSubGo false [] cs

/-- `re.sub(r"\s*-\s*", " - ", s)` of app.py line 102. -/
def hyphenSub (l : List Char) : List Char := hyphenSubGo false [] l

/-- Header-label normalization of app.py lines 100-104:
`.str.strip()`, then `.str.replace(r"\s*-\s*", " - ", regex=True)`, then
`.str.lower()` (`Char.toLower` is exactly Python's ASCII lower-casing). -/
def normalizeLabel (l : Label) : Label :=
  (hyphenSub (pyStrip l)).map Char.toLower

/-- The canonical schema: the `columns` list of app.py lines 76-93 (16
required labels, literal casing and spacing). -/
def columns : List Label :=
  ["External Code".toList,
   "Processing Group Code".toList,
   "Processing Group Description".toList,
   "Best External Description - Current".toList,
   "Current Nielsen Item ID".toList,
   "Predicted Barcode - Current".toList,
   "Price - Current".toList,
   "Retailer SKU - Current".toList,
   "Module".toList,
   "Brand".toList,
   "URL".toList,
   "Category".toList,
   "Allocation".toList,
   "Yes/No".toList,
   "GIC".toList,
   "Date".toList]

/-- `columns_lower = [col.lower() for col in columns]` of app.py line 94. -/
def columns_lower : List Label := columns.map (List.map Char.toLower)

/-- A parsed table (pandas `DataFrame`), row-major: an ordered header of
column labels and an ordered list of rows; row `r` holds the cell of column
`j` at position `j`. -/
structure Frame (α : Type) where
  header : List Label
  rows : List (List α)
deriving DecidableEq

/-- A frame is rectangular: every row has one cell per header label (always
true of a table produced by `pd.read_csv` / `pd.read_excel`). -/
def Frame.WF (df : Frame α) : Prop := ∀ r ∈ df.rows, r.length = df.header.length

/-- Header normalization of app.py lines 100-104 applied to a frame
(`df.columns = df.columns.str.strip().str.replace(...).str.lower()`);
cell values are untouched. -/
def normalizeHeader (df : Frame α) : Frame α :=
  ⟨df.header.map normalizeLabel, df.rows⟩

/-- `missing_cols = [col for col in columns_lower if col not in df.columns]`
of app.py line 106, as a function of the (already normalized) header. -/
def missing_cols (header : List Label) : List Label :=
  columns_lower.filter (fun col => decide (¬ col ∈ header))

/-- Label-based column selection `df[labels]` (app.py line 113).  pandas
selects, for each requested label in request order, every source column
bearing that label, in source order; with a duplicated source label all
duplicates are returned.  (Every requested label is present here, the
`missing_cols` check having passed, so the `KeyError` path cannot arise.) -/
def selIdxs (header : List Label) (labels : List Label) : List Nat :=
  labels.flatMap
    (fun l => (List.range header.length).filter (fun i => header[i]? == some l))

/-- The column positions `df[labels]` selects, in selection order: for each
requested label in request order, the positions of every source column
bearing that label, in source order. -/
def selectCols [Inhabited α] (df : Frame α) (labels : List Label) : Frame α :=
  ⟨(selIdxs df.header labels).map (fun i => df.header.getD i []),
   df.rows.map (fun r => (selIdxs df.header labels).map (fun i => r.getD i default))⟩

/-- The header assignment `df.columns = columns` of app.py line 114.  pandas
raises `ValueError: Length mismatch` when the new label list does not have
exactly one label per column; the `Except.error` case models that uncaught
exception. -/
def setColumns (df : Frame α) (newHeader : List Label) : Except String (Frame α) :=
  if newHeader.length = df.header.length then .ok ⟨newHeader, df.rows⟩
  else .error "Length mismatch"

/-- The reorder/projection step, app.py lines 113-114:
`df = df[columns_lower]; df.columns = columns`. -/
def reorderFrame [Inhabited α] (df : Frame α) : Except String (Frame α) :=
  setColumns (selectCols df columns_lower) columns

/-- The final component of a path (Python `pathlib.PurePath.name`):
the part after the last `/`, ignoring trailing slashes. -/
def pathName (s : Label) : Label :=
  ((s.reverse.dropWhile (· == '/')).takeWhile (fun c => !(c == '/'))).reverse

/-- `pathlib.PurePath.suffix`: the final `"."`-component of the name, kept
only when the last dot is neither the first nor the last character of the
name (so dotfiles and trailing dots have no suffix). -/
def pySuffix (s : Label) : Label :=
  let n := pathName s
  let e := n.reverse.takeWhile (fun c => !(c == '.'))
  if 0 < e.length ∧ e.length + 1 < n.length then '.' :: e.reverse else []

/-- `supported_extensions = (".csv", ".xlsx", ".xls")`, app.py line 50. -/
def supported_extensions : List Label := [".csv".toList, ".xlsx".toList, ".xls".toList]

/-- The dispatch test of app.py lines 55-57:
`ext = file_path.suffix.lower(); ext in supported_extensions`. -/
def isSupported (name : Label) : Bool :=
  supported_extensions.contains ((pySuffix name).map Char.toLower)

/-- What reading one extracted file yields: a parsed table, or a read
error (the `except` branch of app.py lines 69-70). -/
inductive FileData (α : Type) where
  | content (df : Frame α)
  | unreadable
deriving DecidableEq

/-- Per-file outcome as reported by the spec: read failure (line 70),
missing columns (lines 107-111), or inclusion in the merge (line 115). -/
inductive FileOutcome where
  | readFailure
  | missingColumns (missing : List Label)
  | merged
deriving DecidableEq

/-- Result of a whole batch run of `main` past the extraction step:
`emptyZip` models the line 42-44 early return, `noValidFiles` lines 72-74,
`noCompleteColumns` the "No files with complete columns to merge." report of
lines 119-121, and `merged` the successful `pd.concat` of line 123.  Each
result carries the per-file outcome log it has produced. -/
inductive BatchResult (α : Type) where
  | emptyZip
  | noValidFiles (log : List (Label × FileOutcome))
  | noCompleteColumns (log : List (Label × FileOutcome))
  | merged (df : Frame α) (log : List (Label × FileOutcome))
deriving DecidableEq

/-- The `valid_files` / `all_dfs` pair built by the read loop of app.py
lines 53-70: supported files that parsed, in input order. -/
def validFiles (inputs : List (Label × FileData α)) : List (Label × Frame α) :=
  inputs.filterMap (fun p =>
    if isSupported p.1 then
      match p.2 with
      | .content df => some (p.1, df)
      | .unreadable => none
    else none)

/-- The read-failure outcomes recorded by the read loop (app.py line 70):
supported files whose parse raised. -/
def readFailures (inputs : List (Label × FileData α)) : List (Label × FileOutcome) :=
  inputs.filterMap (fun p =>
    if isSupported p.1 then
      match p.2 with
      | .content _ => none
      | .unreadable => some (p.1, FileOutcome.readFailure)
    else none)

/-- The per-file normalize/validate/reorder loop of app.py lines 98-115,
over `zip(valid_files, all_dfs)`.  Returns the outcome log together with
`dfs_reorder`.  A `Length mismatch` error raised by the reorder step is not
caught by any handler inside the loop (the `try` of line 118 starts after
it), so it aborts the whole run: the `Except.error` case. -/
def reorderLoop [Inhabited α] :
    List (Label × Frame α) → Except String (List (Label × FileOutcome) × List (Frame α))
  | [] => .ok ([], [])
  | (file, df) :: rest =>
    let ndf := normalizeHeader df
    let missing := missing_cols ndf.header
    if missing = [] then
      match reorderFrame ndf with
      | .error e => .error e
      | .ok rdf =>
        match reorderLoop rest with
        | .error e => .error e
        | .ok (outs, dfs) => .ok ((file, .merged) :: outs, rdf :: dfs)
    else
      match reorderLoop rest with
      | .error e => .error e
      | .ok (outs, dfs) => .ok ((file, .missingColumns missing) :: outs, dfs)

/-- `pd.concat(dfs_reorder, ignore_index=True)` (app.py line 123) in the
only case arising there: all frames share the identical header `columns`
by construction, so concatenation is plain row stacking in list order. -/
def concatFrames : List (Frame α) → Frame α
  | [] => ⟨[], []⟩
  | df :: dfs => ⟨df.header, ((df :: dfs).map Frame.rows).flatten⟩

/-- The batch coordinator: app.py lines 42-123 from the extracted file list
to the merged frame, with the outcome log accumulated from the messages the
code emits per file. -/
def mergeBatch [Inhabited α] (inputs : List (Label × FileData α)) :
    Except String (BatchResult α) :=
  if inputs.isEmpty then .ok .emptyZip
  else
    let valid := validFiles inputs
    if valid.isEmpty then .ok (.noValidFiles (readFailures inputs))
    else
      match reorderLoop valid with
      | .error e => .error e
      | .ok (outs, dfs) =>
        if dfs.isEmpty then .ok (.noCompleteColumns (readFailures inputs ++ outs))
        else .ok (.merged (concatFrames dfs) (readFailures inputs ++ outs))

/-- The merged frame a batch result delivers for download, if any. -/
def batchFrame : BatchResult α → Option (Frame α)
  | .merged df _ => some df
  | _ => none

/-- The per-file outcome log a batch result has produced. -/
def batchLog : BatchResult α → List (Label × FileOutcome)
  | .emptyZip => []
  | .noValidFiles log => log
  | .noCompleteColumns log => log
  | .merged _ log => log

/-- Insert `x` at position `k` of `l` (used to state how one more per-file
outcome extends an outcome log). -/
def insertAt (k : Nat) (x : γ) (l : List γ) : List γ :=
  l.take k ++ x :: l.drop k

/-- The cells of column position `i`, top to bottom (`none` past a ragged
row end, which a well-formed frame does not have). -/
def colValues (df : Frame α) (i : Nat) : List (Option α) :=
  df.rows.map (fun r => r[i]?)

/-- The reordered frames of the files that reach the `merged` outcome, in
input order — the list `dfs_reorder` of app.py line 96/115, described
extensionally. -/
def mergedSurvivors [Inhabited α] (files : List (Label × Frame α)) : List (Frame α) :=
  files.filterMap (fun p =>
    let ndf := normalizeHeader p.2
    if missing_cols ndf.header = [] then (reorderFrame ndf).toOption else none)

/-- The input files whose table passes validation (no missing canonical
columns after normalization), in input order. -/
def mergedSources (files : List (Label × Frame α)) : List (Label × Frame α) :=
  files.filter (fun p => decide (missing_cols (normalizeHeader p.2).header = []))

/-- Spec-side statement of the hyphen-spacing rule (spec section 4.1):
scanning left to right, each hyphen, together with the maximal whitespace
runs immediately before and after it, is replaced by the hyphen with exactly
one space on each side; hyphens are handled independently, and a
hyphen-free string is left unchanged. -/
inductive HyphenSpec : List Char → List Char → Prop where
  | noHyphen (l : List Char) (h : '-' ∉ l) : HyphenSpec l l
  | hyphen (a b r : List Char) (ha : '-' ∉ a)
      (htail : HyphenSpec (b.dropWhile isSpace) r) :
      HyphenSpec (a ++ '-' :: b) (stripTrail a ++ ' ' :: '-' :: ' ' :: r)

/-- Example: a table whose header is literally the canonical schema, with
two rows. -/
def exFullA : Frame Nat :=
  ⟨columns, [(List.range 16).map (100 + ·), (List.range 16).map (200 + ·)]⟩

/-- Example: a second canonical-header table, one row. -/
def exFullB : Frame Nat :=
  ⟨columns, [(List.range 16).map (300 + ·)]⟩

/-- Example: a table providing only the first canonical column. -/
def exMissing : Frame Nat :=
  ⟨["External Code".toList], [[7]]⟩

/-- Example: all 16 canonical columns (in reverse order) plus a junk
column — passes validation, no duplicate normalized labels. -/
def exShuffled : Frame Nat :=
  ⟨"Junk".toList :: columns.reverse, [List.range 17, (List.range 17).map (50 + ·)]⟩

/-- Example: the canonical header plus one extra column whose label
normalizes to `"external code"` again — a duplicated normalized canonical
label that still passes the missing-columns check. -/
def exDupCanon : Frame Nat :=
  ⟨columns ++ [" External Code".toList], [List.range 17]⟩

/-- Example: the canonical header plus a second column normalizing to
`"date"`. -/
def exDupDate : Frame Nat :=
  ⟨columns ++ ["DATE".toList], [List.range 17]⟩

/-- Example batch: two mergeable files, one unreadable file, one file with
missing columns, one unsupported file. -/
def exInputs : List (Label × FileData Nat) :=
  [("a.csv".toList, .content exFullA),
   ("bad.xls".toList, .unreadable),
   ("note.txt".toList, .content exFullB),
   ("b.xlsx".toList, .content exMissing),
   ("c.csv".toList, .content exFullB)]

/-- Example batch fragments used to exercise the partial-failure claim. -/
def exPre : List (Label × FileData Nat) := [("a.csv".toList, .content exFullA)]

/-- Second fragment of the example batch. -/
def exPost : List (Label × FileData Nat) := [("c.csv".toList, .content exFullB)]

/-- The merged frame `mergeBatch exInputs` produces. -/
def exMerged : Frame Nat :=
  ⟨columns, exFullA.rows ++ exFullB.rows⟩

/-- The outcome log `mergeBatch exInputs` produces. -/
def exLog : List (Label × FileOutcome) :=
  [("bad.xls".toList, .readFailure),
   ("a.csv".toList, .merged),
   ("b.xlsx".toList, .missingColumns columns_lower.tail),
   ("c.csv".toList, .merged)]

/-! ### Character-level lemmas -/

theorem char_eq_iff_toNat {a b : Char} : a = b ↔ a.toNat = b.toNat :=
  ⟨fun h => h ▸ rfl, fun h => by rw [← Char.ofNat_toNat a, h, Char.ofNat_toNat]⟩

theorem toNat_ofNat_valid {n : Nat} (h : n < 55296) : (Char.ofNat n).toNat = n := by
  rw [Char.ofNat, dif_pos (Or.inl h : Nat.isValidChar n)]
  rfl

theorem toNat_toLower (c : Char) :
    (Char.toLower c).toNat = if c.toNat ≥ 65 ∧ c.toNat ≤ 90 then c.toNat + 32 else c.toNat := by
  rw [Char.toLower]
  split
  · next h => exact toNat_ofNat_valid (by omega)
  · rfl

theorem isSpace_toLower (c : Char) : isSpace (Char.toLower c) = isSpace c := by
  unfold isSpace
  rw [toNat_toLower]
  split
  · next h => exact decide_eq_decide.mpr (by omega)
  · rfl

theorem toLower_eq_hyphen_iff {c : Char} : Char.toLower c = '-' ↔ c = '-' := by
  rw [char_eq_iff_toNat, char_eq_iff_toNat, toNat_toLower]
  have h45 : ('-' : Char).toNat = 45 := rfl
  rw [h45]
  split
  · next h => omega
  · exact Iff.rfl

theorem toLower_idem (c : Char) : Char.toLower (Char.toLower c) = Char.toLower c := by
  rw [char_eq_iff_toNat, toNat_toLower, toNat_toLower]
  split_ifs <;> omega

/-! ### Whitespace-strip lemmas -/

theorem dropWhile_head_false {p : Char → Bool} {l : List Char} {c : Char} {cs : List Char}
    (h : l.dropWhile p = c :: cs) : p c = false := by
  induction l with
  | nil => simp at h
  | cons a as ih =>
    rw [List.dropWhile_cons] at h
    by_cases ha : p a = true
    · rw [if_pos ha] at h
      exact ih h
    · rw [if_neg ha] at h
      cases h
      exact Bool.not_eq_true _ |>.mp ha

theorem stripLead_cons_space {c : Char} {t : List Char} (h : isSpace c = true) :
    stripLead (c :: t) = stripLead t := by
  simp [stripLead, List.dropWhile_cons, h]

theorem stripLead_cons_nonspace {c : Char} {t : List Char} (h : isSpace c = false) :
    stripLead (c :: t) = c :: t := by
  simp [stripLead, List.dropWhile_cons, h]

theorem stripLead_idem (l : List Char) : stripLead (stripLead l) = stripLead l := by
  unfold stripLead
  cases h : l.dropWhile isSpace with
  | nil => rfl
  | cons c cs =>
    have hc : isSpace c = false := dropWhile_head_false h
    simp [List.dropWhile_cons, hc]

theorem stripTrail_eq_nil {l : List Char} (h : ∀ x ∈ l, isSpace x = true) :
    stripTrail l = [] := by
  unfold stripTrail
  rw [List.dropWhile_eq_nil_iff.mpr (fun x hx => h x (List.mem_reverse.mp hx))]
  rfl

theorem stripTrail_idem (l : List Char) : stripTrail (stripTrail l) = stripTrail l := by
  unfold stripTrail
  rw [List.reverse_reverse]
  cases h : l.reverse.dropWhile isSpace with
  | nil => rfl
  | cons c cs =>
    have hc : isSpace c = false := dropWhile_head_false h
    simp [List.dropWhile_cons, hc]

theorem stripTrail_append_cons {u : List Char} {c : Char} {v : List Char}
    (hc : isSpace c = false) :
    stripTrail (u ++ c :: v) = u ++ c :: stripTrail v := by
  unfold stripTrail
  rw [List.reverse_append, List.reverse_cons, List.append_assoc, List.dropWhile_append]
  split
  · next h =>
    have hv : v.reverse.dropWhile isSpace = [] := List.isEmpty_iff.mp h
    simp [hv, List.dropWhile_cons, hc]
  · next h =>
    simp [List.reverse_append, List.append_assoc]

theorem stripTrail_concat_space {u : List Char} {c : Char} (hc : isSpace c = true) :
    stripTrail (u ++ [c]) = stripTrail u := by
  unfold stripTrail
  rw [List.reverse_append]
  simp [List.dropWhile_cons, hc]

theorem stripTrail_cons_of_nil {c : Char} {t : List Char} (h : stripTrail t = []) :
    stripTrail (c :: t) = if isSpace c then [] else [c] := by
  have ht : t.reverse.dropWhile isSpace = [] := by
    have h2 := congrArg List.reverse h
    rwa [stripTrail, List.reverse_reverse, List.reverse_nil] at h2
  unfold stripTrail
  rw [List.reverse_cons, List.dropWhile_append, ht]
  by_cases hc : isSpace c
  · simp [List.dropWhile_cons, hc]
  · simp [List.dropWhile_cons, hc]

theorem stripTrail_cons_of_ne_nil {c : Char} {t : List Char} (h : stripTrail t ≠ []) :
    stripTrail (c :: t) = c :: stripTrail t := by
  have ht : ¬ (t.reverse.dropWhile isSpace).isEmpty = true := by
    intro hcon
    exact h (by rw [stripTrail, List.isEmpty_iff.mp hcon]; rfl)
  unfold stripTrail
  rw [List.reverse_cons, List.dropWhile_append, if_neg ht, List.reverse_append]
  rfl

theorem strip_comm (l : List Char) : stripLead (stripTrail l) = stripTrail (stripLead l) := by
  induction l with
  | nil => rfl
  | cons c t ih =>
    by_cases hc : isSpace c = true
    · by_cases h : stripTrail t = []
      · rw [stripTrail_cons_of_nil h, if_pos hc, stripLead_cons_space hc, ← ih, h]
      · rw [stripTrail_cons_of_ne_nil h, stripLead_cons_space hc, stripLead_cons_space hc]
        exact ih
    · rw [Bool.not_eq_true] at hc
      rw [stripLead_cons_nonspace hc]
      by_cases h : stripTrail t = []
      · rw [stripTrail_cons_of_nil h, if_neg (by simp [hc])]
        exact stripLead_cons_nonspace hc
      · rw [stripTrail_cons_of_ne_nil h]
        exact stripLead_cons_nonspace hc

/-! ### Scanner lemmas for `hyphenSub` -/

theorem go_nil (aft : Bool) (p : List Char) :
    hyphenSubGo aft p [] = if aft then [] else p.reverse := rfl

theorem go_cons_space {c : Char} (aft : Bool) (p cs : List Char) (h : isSpace c = true) :
    hyphenSubGo aft p (c :: cs) = hyphenSubGo aft (c :: p) cs := by
  simp [hyphenSubGo, h]

theorem go_cons_hyphen (aft : Bool) (p cs : List Char) :
    hyphenSubGo aft p ('-' :: cs) = ' ' :: '-' :: ' ' :: hyphenSubGo true [] cs := by
  have h : isSpace '-' = false := by decide
  simp [hyphenSubGo, h]

theorem go_cons_other {c : Char} (aft : Bool) (p cs : List Char)
    (hs : isSpace c = false) (hh : c ≠ '-') :
    hyphenSubGo aft p (c :: cs) =
      (if aft then [] else p.reverse) ++ c :: hyphenSubGo false [] cs := by
  simp [hyphenSubGo, hs, hh]

theorem go_false_no_hyphen {l : List Char} (h : '-' ∉ l) :
    ∀ p, hyphenSubGo false p l = p.reverse ++ l := by
  induction l with
  | nil => intro p; rw [go_nil]; simp
  | cons c cs ih =>
    intro p
    have hc : c ≠ '-' := fun hc => h (hc ▸ List.mem_cons_self c cs)
    have hcs : '-' ∉ cs := fun hm => h (List.mem_cons_of_mem c hm)
    by_cases hs : isSpace c = true
    · rw [go_cons_space _ _ _ hs, ih hcs (c :: p)]
      simp
    · rw [go_cons_other _ _ _ (Bool.not_eq_true _ |>.mp hs) hc, ih hcs []]
      simp

theorem hyphenSub_no_hyphen {l : List Char} (h : '-' ∉ l) : hyphenSub l = l := by
  rw [hyphenSub, go_false_no_hyphen h]
  rfl

theorem go_true_eq (b : List Char) :
    ∀ p, hyphenSubGo true p b = hyphenSub (stripLead b) := by
  induction b with
  | nil => intro p; rfl
  | cons c cs ih =>
    intro p
    by_cases hs : isSpace c = true
    · rw [go_cons_space _ _ _ hs, ih (c :: p), stripLead_cons_space hs]
    · have hs' : isSpace c = false := Bool.not_eq_true _ |>.mp hs
      rw [stripLead_cons_nonspace hs']
      by_cases hc : c = '-'
      · subst hc
        rw [go_cons_hyphen, hyphenSub, go_cons_hyphen]
      · rw [go_cons_other _ _ _ hs' hc, hyphenSub, go_cons_other _ _ _ hs' hc]
        simp

theorem go_false_first_hyphen {a : List Char} (ha : '-' ∉ a) :
    ∀ p b, (∀ x ∈ p, isSpace x = true) →
      hyphenSubGo false p (a ++ '-' :: b) =
        stripTrail (p.reverse ++ a) ++ ' ' :: '-' :: ' ' :: hyphenSub (stripLead b) := by
  induction a with
  | nil =>
    intro p b hp
    rw [List.nil_append, go_cons_hyphen, go_true_eq b [], List.append_nil,
      stripTrail_eq_nil (fun x hx => hp x (List.mem_reverse.mp hx))]
    rfl
  | cons c cs ih =>
    intro p b hp
    have hc : c ≠ '-' := fun hc => ha (hc ▸ List.mem_cons_self c cs)
    have hcs : '-' ∉ cs := fun hm => ha (List.mem_cons_of_mem c hm)
    by_cases hs : isSpace c = true
    · have hcp : ∀ x ∈ c :: p, isSpace x = true := by
        intro x hx
        rcases List.mem_cons.mp hx with h1 | h1
        · rw [h1]; exact hs
        · exact hp x h1
      rw [List.cons_append, go_cons_space _ _ _ hs, ih hcs (c :: p) b hcp]
      simp [List.append_assoc]
    · have hs' : isSpace c = false := Bool.not_eq_true _ |>.mp hs
      rw [List.cons_append, go_cons_other _ _ _ hs' hc, ih hcs [] b (by intro x hx; simp at hx)]
      rw [List.reverse_nil, List.nil_append, stripTrail_append_cons hs']
      simp

theorem hyphenSub_first_hyphen {a : List Char} (b : List Char) (ha : '-' ∉ a) :
    hyphenSub (a ++ '-' :: b) =
      stripTrail a ++ ' ' :: '-' :: ' ' :: hyphenSub (stripLead b) := by
  rw [hyphenSub, go_false_first_hyphen ha [] b (by intro x hx; simp at hx)]
  rfl

theorem go_map_toLower (l : List Char) :
    ∀ aft p, hyphenSubGo aft (p.map Char.toLower) (l.map Char.toLower) =
      (hyphenSubGo aft p l).map Char.toLower := by
  have hsp : Char.toLower ' ' = ' ' := by decide
  have hhy : Char.toLower '-' = '-' := by decide
  induction l with
  | nil =>
    intro aft p
    rw [List.map_nil, go_nil, go_nil]
    cases aft
    · rw [if_neg (by simp), if_neg (by simp), List.map_reverse]
    · rfl
  | cons c cs ih =>
    intro aft p
    rw [List.map_cons]
    by_cases hs : isSpace c = true
    · have hs2 : isSpace (Char.toLower c) = true := by rw [isSpace_toLower]; exact hs
      rw [go_cons_space _ _ _ hs2, go_cons_space _ _ _ hs, ← List.map_cons]
      exact ih aft (c :: p)
    · have hs' : isSpace c = false := Bool.not_eq_true _ |>.mp hs
      have hs2 : isSpace (Char.toLower c) = false := by rw [isSpace_toLower]; exact hs'
      by_cases hc : c = '-'
      · subst hc
        rw [hhy, go_cons_hyphen, go_cons_hyphen]
        have h3 := ih true []
        rw [List.map_nil] at h3
        rw [h3, List.map_cons, List.map_cons, List.map_cons, hsp, hhy]
      · have hc2 : Char.toLower c ≠ '-' := fun h => hc (toLower_eq_hyphen_iff.mp h)
        rw [go_cons_other _ _ _ hs2 hc2, go_cons_other _ _ _ hs' hc]
        have h3 := ih false []
        rw [List.map_nil] at h3
        rw [h3]
        cases aft
        · rw [if_neg (by simp), if_neg (by simp), List.map_append, List.map_cons,
            List.map_reverse]
        · rw [if_pos rfl, if_pos rfl, List.nil_append, List.nil_append, List.map_cons]

theorem hyphenSub_map_toLower (l : List Char) :
    hyphenSub (l.map Char.toLower) = (hyphenSub l).map Char.toLower := by
  have := go_map_toLower l false []
  rwa [List.map_nil] at this

theorem stripLead_map_toLower (l : List Char) :
    stripLead (l.map Char.toLower) = (stripLead l).map Char.toLower := by
  have hfun : (isSpace ∘ Char.toLower) = isSpace := funext isSpace_toLower
  unfold stripLead
  rw [List.dropWhile_map, hfun]

theorem stripTrail_map_toLower (l : List Char) :
    stripTrail (l.map Char.toLower) = (stripTrail l).map Char.toLower := by
  have hfun : (isSpace ∘ Char.toLower) = isSpace := funext isSpace_toLower
  unfold stripTrail
  rw [← List.map_reverse, List.dropWhile_map, hfun, List.map_reverse]

theorem pyStrip_map_toLower (l : List Char) :
    pyStrip (l.map Char.toLower) = (pyStrip l).map Char.toLower := by
  rw [pyStrip, stripLead_map_toLower, stripTrail_map_toLower]
  rfl

/-! ### Idempotence of the normalization -/

theorem first_hyphen_split {z : List Char} (h : '-' ∈ z) :
    ∃ a b, z = a ++ '-' :: b ∧ '-' ∉ a := by
  induction z with
  | nil => simp at h
  | cons c cs ih =>
    by_cases hc : c = '-'
    · exact ⟨[], cs, by rw [hc]; rfl, by simp⟩
    · have hcs : '-' ∈ cs := by
        rcases List.mem_cons.mp h with h1 | h1
        · exact absurd h1.symm hc
        · exact h1
      obtain ⟨a, b, heq, ha⟩ := ih hcs
      exact ⟨c :: a, b, by rw [heq]; rfl, by
        intro hm
        rcases List.mem_cons.mp hm with h1 | h1
        · exact hc h1.symm
        · exact ha h1⟩

theorem stripped_head {c : Char} {t : List Char} (hL : stripLead (c :: t) = c :: t) :
    isSpace c = false := by
  by_contra hs
  rw [Bool.not_eq_false] at hs
  rw [stripLead_cons_space hs] at hL
  have hle : (stripLead t).length ≤ t.length := (List.dropWhile_sublist isSpace).length_le
  rw [hL] at hle
  simp at hle

theorem mem_of_mem_stripTrail {x : Char} {a : List Char} (h : x ∈ stripTrail a) : x ∈ a := by
  rw [stripTrail, List.mem_reverse] at h
  exact List.mem_reverse.mp ((List.dropWhile_sublist isSpace).subset h)

theorem stripTrail_append_nonspace {u v : List Char} {c : Char}
    (hc : c ∈ v) (hcs : isSpace c = false) : stripTrail (u ++ v) = u ++ stripTrail v := by
  obtain ⟨v₁, v₂, rfl⟩ := List.append_of_mem hc
  rw [← List.append_assoc, stripTrail_append_cons hcs, stripTrail_append_cons hcs,
    List.append_assoc]

theorem isSpace_space : isSpace ' ' = true := by decide

theorem isSpace_hyphen : isSpace '-' = false := by decide

theorem stripTrail_nil : stripTrail ([] : List Char) = [] := rfl

theorem key_nil_case {a0 : List Char} (ha0 : '-' ∉ a0)
    (ha0L : stripLead a0 = a0) (ha0R : stripTrail a0 = a0) :
    hyphenSub (pyStrip (a0 ++ [' ', '-', ' '])) = a0 ++ [' ', '-', ' '] := by
  cases h0 : a0 with
  | nil => rfl
  | cons d t =>
    subst h0
    have hd : isSpace d = false := stripped_head ha0L
    have hL : stripLead (d :: t ++ [' ', '-', ' ']) = d :: t ++ [' ', '-', ' '] := by
      rw [List.cons_append]
      exact stripLead_cons_nonspace hd
    have hT : stripTrail (d :: t ++ [' ', '-', ' ']) = d :: t ++ [' ', '-'] := by
      have e1 : d :: t ++ [' ', '-', ' '] = (d :: t ++ [' ', '-']) ++ [' '] := by
        simp
      have e2 : d :: t ++ [' ', '-'] = (d :: t ++ [' ']) ++ '-' :: [] := by
        simp
      rw [e1, stripTrail_concat_space isSpace_space, e2,
        stripTrail_append_cons isSpace_hyphen, stripTrail_nil]
    rw [pyStrip, hL, hT]
    have e2 : d :: t ++ [' ', '-'] = (d :: t ++ [' ']) ++ '-' :: [] := by
      simp
    have hha : '-' ∉ d :: t ++ [' '] := by
      intro hm
      rcases List.mem_append.mp hm with h1 | h1
      · exact ha0 h1
      · simp at h1
    rw [e2, hyphenSub_first_hyphen [] hha, stripTrail_concat_space isSpace_space, ha0R]
    rfl

theorem key_cons_case {a0 w : List Char} (ha0 : '-' ∉ a0)
    (ha0L : stripLead a0 = a0) (ha0R : stripTrail a0 = a0)
    {x : Char} (hx : x ∈ w) (hxs : isSpace x = false) :
    hyphenSub (pyStrip (a0 ++ ' ' :: '-' :: ' ' :: w)) =
      a0 ++ ' ' :: '-' :: ' ' :: hyphenSub (pyStrip w) := by
  cases h0 : a0 with
  | nil =>
    have hL : stripLead ([] ++ ' ' :: '-' :: ' ' :: w) = '-' :: ' ' :: w := by
      rw [List.nil_append, stripLead_cons_space isSpace_space,
        stripLead_cons_nonspace isSpace_hyphen]
    have hT : stripTrail ('-' :: ' ' :: w) = '-' :: ' ' :: stripTrail w := by
      have e1 : '-' :: ' ' :: w = ['-', ' '] ++ w := rfl
      rw [e1, stripTrail_append_nonspace hx hxs]
      rfl
    rw [pyStrip, hL, hT]
    have e2 : '-' :: ' ' :: stripTrail w = [] ++ '-' :: (' ' :: stripTrail w) := rfl
    rw [e2, hyphenSub_first_hyphen _ (by simp), stripLead_cons_space isSpace_space,
      strip_comm, ← pyStrip]
    rfl
  | cons d t =>
    subst h0
    have hd : isSpace d = false := stripped_head ha0L
    have hL : stripLead (d :: t ++ ' ' :: '-' :: ' ' :: w) =
        d :: t ++ ' ' :: '-' :: ' ' :: w := by
      rw [List.cons_append]
      exact stripLead_cons_nonspace hd
    have hT : stripTrail (d :: t ++ ' ' :: '-' :: ' ' :: w) =
        d :: t ++ ' ' :: '-' :: ' ' :: stripTrail w := by
      have e1 : d :: t ++ ' ' :: '-' :: ' ' :: w = (d :: t ++ [' ', '-', ' ']) ++ w := by
        simp
      rw [e1, stripTrail_append_nonspace hx hxs]
      simp
    rw [pyStrip, hL, hT]
    have e2 : d :: t ++ ' ' :: '-' :: ' ' :: stripTrail w =
        (d :: t ++ [' ']) ++ '-' :: (' ' :: stripTrail w) := by
      simp
    have hha : '-' ∉ d :: t ++ [' '] := by
      intro hm
      rcases List.mem_append.mp hm with h1 | h1
      · exact ha0 h1
      · simp at h1
    rw [e2, hyphenSub_first_hyphen _ hha, stripTrail_concat_space isSpace_space, ha0R,
      stripLead_cons_space isSpace_space, strip_comm, ← pyStrip]

theorem key_aux :
    ∀ n z, List.length z ≤ n → stripLead z = z → stripTrail z = z →
      hyphenSub (pyStrip (hyphenSub z)) = hyphenSub z := by
  intro n
  induction n with
  | zero =>
    intro z hlen hL hR
    have hz : z = [] := by
      cases z with
      | nil => rfl
      | cons c cs => simp at hlen
    subst hz
    rfl
  | succ n ih =>
    intro z hlen hL hR
    by_cases hmem : '-' ∈ z
    · obtain ⟨a, b, rfl, ha⟩ := first_hyphen_split hmem
      have hbR : stripTrail b = b := by
        have h1 : stripTrail (a ++ '-' :: b) = a ++ '-' :: stripTrail b :=
          stripTrail_append_cons isSpace_hyphen
        rw [hR] at h1
        have h2 := List.append_inj_right h1.symm rfl
        exact (List.cons.injEq _ _ _ _ |>.mp h2).2
      have haL : stripLead a = a := by
        cases a with
        | nil => rfl
        | cons d t =>
          have hd : isSpace d = false := stripped_head (by rwa [List.cons_append] at hL)
          exact stripLead_cons_nonspace hd
      have ha0L : stripLead (stripTrail a) = stripTrail a := by
        rw [strip_comm, haL]
      have ha0R : stripTrail (stripTrail a) = stripTrail a := stripTrail_idem a
      have ha0 : '-' ∉ stripTrail a := fun h => ha (mem_of_mem_stripTrail h)
      have hb0L : stripLead (stripLead b) = stripLead b := stripLead_idem b
      have hb0R : stripTrail (stripLead b) = stripLead b := by
        rw [← strip_comm, hbR]
      have hlenb : (stripLead b).length ≤ n := by
        have h1 : (stripLead b).length ≤ b.length :=
          (List.dropWhile_sublist isSpace).length_le
        have h2 : (a ++ '-' :: b).length = a.length + 1 + b.length := by
          simp [List.length_append]
          omega
        omega
      rw [hyphenSub_first_hyphen b ha]
      by_cases hb0 : stripLead b = []
      · rw [hb0]
        exact key_nil_case ha0 ha0L ha0R
      · obtain ⟨e, b₁, hify⟩ : ∃ e b₁, stripLead b = e :: b₁ := by
          cases hx : stripLead b with
          | nil => exact absurd hx hb0
          | cons e b₁ => exact ⟨e, b₁, rfl⟩
        have he : isSpace e = false := stripped_head (hify ▸ hb0L)
        have hwit : ∃ w ∈ hyphenSub (stripLead b), isSpace w = false := by
          by_cases hmb : '-' ∈ stripLead b
          · obtain ⟨a', b', heq', ha'⟩ := first_hyphen_split hmb
            refine ⟨'-', ?_, isSpace_hyphen⟩
            rw [heq', hyphenSub_first_hyphen b' ha']
            exact List.mem_append.mpr (Or.inr (List.mem_cons_of_mem _ (List.mem_cons_self _ _)))
          · rw [hyphenSub_no_hyphen hmb, hify]
            exact ⟨e, List.mem_cons_self _ _, he⟩
        obtain ⟨w, hw, hwns⟩ := hwit
        rw [key_cons_case ha0 ha0L ha0R hw hwns, ih (stripLead b) hlenb hb0L hb0R]
    · rw [hyphenSub_no_hyphen hmem, pyStrip, hL, hR, hyphenSub_no_hyphen hmem]

theorem hyphenSub_pyStrip_idem {z : List Char} (hL : stripLead z = z) (hR : stripTrail z = z) :
    hyphenSub (pyStrip (hyphenSub z)) = hyphenSub z :=
  key_aux z.length z le_rfl hL hR

theorem stripLead_pyStrip (l : List Char) : stripLead (pyStrip l) = pyStrip l := by
  rw [pyStrip, strip_comm, stripLead_idem]

theorem stripTrail_pyStrip (l : List Char) : stripTrail (pyStrip l) = pyStrip l :=
  stripTrail_idem _

theorem mem_of_mem_pyStrip {x : Char} {l : List Char} (h : x ∈ pyStrip l) : x ∈ l :=
  (List.dropWhile_sublist isSpace).subset (mem_of_mem_stripTrail h)

theorem hyphenSpec_sub_aux :
    ∀ n z, List.length z ≤ n → HyphenSpec z (hyphenSub z) := by
  intro n
  induction n with
  | zero =>
    intro z hlen
    have hz : z = [] := by
      cases z with
      | nil => rfl
      | cons c cs => simp at hlen
    subst hz
    exact .noHyphen [] (by simp)
  | succ n ih =>
    intro z hlen
    by_cases hmem : '-' ∈ z
    · obtain ⟨a, b, rfl, ha⟩ := first_hyphen_split hmem
      rw [hyphenSub_first_hyphen b ha]
      refine HyphenSpec.hyphen a b _ ha (ih (stripLead b) ?_)
      have h1 : (stripLead b).length ≤ b.length :=
        (List.dropWhile_sublist isSpace).length_le
      have h2 : (a ++ '-' :: b).length = a.length + 1 + b.length := by
        simp [List.length_append]
        omega
      omega
    · rw [hyphenSub_no_hyphen hmem]
      exact .noHyphen z hmem

/-- The normalized canonical labels coincide with the code's
`columns_lower`: the canonical labels carry no boundary whitespace and
already space their hyphens canonically, so only lower-casing acts. -/
theorem normalize_columns : columns.map normalizeLabel = columns_lower := by decide

/-- Claim C3: the label-normalization function (strip, fix hyphen spacing,
lowercase) is idempotent: for every string `x`,
`normalize(normalize(x)) = normalize(x)`. -/
theorem c3_normalize_idempotent (l : Label) :
    normalizeLabel (normalizeLabel l) = normalizeLabel l := by
  unfold normalizeLabel
  rw [pyStrip_map_toLower, hyphenSub_map_toLower,
    hyphenSub_pyStrip_idem (stripLead_pyStrip l) (stripTrail_pyStrip l), List.map_map]
  have hcomp : Char.toLower ∘ Char.toLower = Char.toLower := funext toLower_idem
  rw [hcomp]

/-- Claim C4: normalization is exactly the composition strip, then
hyphen-spacing fix, then lowercase; the hyphen-spacing fix satisfies the
spec's replace-every-maximal-whitespace-run-adjacent-to-a-hyphen rule
(`HyphenSpec`, one hyphen at a time, independently); and a hyphen-free
label is changed only by strip and lowercase. -/
theorem c4_normalize_composition :
    (∀ l : Label, normalizeLabel l = (hyphenSub (pyStrip l)).map Char.toLower)
    ∧ (∀ l : Label, HyphenSpec (pyStrip l) (hyphenSub (pyStrip l)))
    ∧ (∀ l : Label, '-' ∉ l → normalizeLabel l = (pyStrip l).map Char.toLower) := by
  refine ⟨fun l => rfl, fun l => hyphenSpec_sub_aux (pyStrip l).length _ le_rfl, fun l h => ?_⟩
  have h2 : '-' ∉ pyStrip l := fun hm => h (mem_of_mem_pyStrip hm)
  rw [normalizeLabel, hyphenSub_no_hyphen h2]

theorem c4_normalize_composition_witness :
    ('-' ∉ "  Brand ".toList)
    ∧ normalizeLabel "  Brand ".toList = (pyStrip "  Brand ".toList).map Char.toLower :=
  ⟨by decide, c4_normalize_composition.2.2 "  Brand ".toList (by decide)⟩

/-- Claim C5: `"A-B"`, `"A -B"`, `"A- B"` and `"A   -   B"` all normalize
to the same string `"a - b"`: whitespace differences around a hyphen
(including none) and case differences are erased. -/
theorem c5_hyphen_spacing_examples :
    normalizeLabel "A-B".toList = "a - b".toList
    ∧ normalizeLabel "A -B".toList = "a - b".toList
    ∧ normalizeLabel "A- B".toList = "a - b".toList
    ∧ normalizeLabel "A   -   B".toList = "a - b".toList := by
  refine ⟨?_, ?_, ?_, ?_⟩ <;> decide

/-- Claim C1: for every table header, validation returns `[]` iff every
normalized canonical label occurs among the normalized header labels;
its result holds exactly the absent canonical labels; and it is an ordered
subsequence of the canonical schema (canonical order). -/
theorem c1_validator (header : List Label) :
    (missing_cols (header.map normalizeLabel) = [] ↔
      ∀ c ∈ columns.map normalizeLabel, c ∈ header.map normalizeLabel)
    ∧ (∀ c, c ∈ missing_cols (header.map normalizeLabel) ↔
        c ∈ columns.map normalizeLabel ∧ c ∉ header.map normalizeLabel)
    ∧ List.Sublist (missing_cols (header.map normalizeLabel))
        (columns.map normalizeLabel) := by
  rw [normalize_columns]
  refine ⟨?_, ?_, List.filter_sublist _⟩
  · simp [missing_cols, List.filter_eq_nil_iff]
  · intro c
    simp [missing_cols, List.mem_filter]

/-! ### Reorder / projection step -/

theorem range_filter_count (nh : List Label) (c : Label) :
    ((List.range nh.length).filter (fun i => nh[i]? == some c)).length = nh.count c := by
  induction nh with
  | nil => rfl
  | cons y nh ih =>
    rw [List.length_cons, List.range_succ_eq_map, List.filter_cons, List.filter_map]
    have hfun : ((fun i => (y :: nh)[i]? == some c) ∘ Nat.succ) =
        (fun i => nh[i]? == some c) := by
      funext i
      show ((y :: nh)[i + 1]? == some c) = (nh[i]? == some c)
      rw [List.getElem?_cons_succ]
    rw [hfun, List.count_cons]
    by_cases hy : y = c
    · have : ((y :: nh)[0]? == some c) = true := by
        rw [List.getElem?_cons_zero, hy]
        simp
      rw [if_pos this]
      simp only [List.length_cons, List.length_map, ih, List.count_cons, hy]
      simp
    · have : ¬ ((y :: nh)[0]? == some c) = true := by
        rw [List.getElem?_cons_zero]
        simp [hy]
      rw [if_neg this]
      simp only [List.length_map, ih, List.count_cons]
      simp [hy]

theorem filter_single (nh : List Label) (c : Label) (h : nh.count c = 1) :
    ∃ j, (List.range nh.length).filter (fun i => nh[i]? == some c) = [j] ∧
      nh[j]? = some c := by
  induction nh with
  | nil => simp at h
  | cons y nh ih =>
    rw [List.count_cons] at h
    rw [List.length_cons, List.range_succ_eq_map, List.filter_cons, List.filter_map]
    have hfun : ((fun i => (y :: nh)[i]? == some c) ∘ Nat.succ) =
        (fun i => nh[i]? == some c) := by
      funext i
      show ((y :: nh)[i + 1]? == some c) = (nh[i]? == some c)
      rw [List.getElem?_cons_succ]
    rw [hfun]
    by_cases hy : y = c
    · have hcnt : nh.count c = 0 := by
        simp [hy] at h
        omega
      have hmem : c ∉ nh := by
        intro hm
        have := List.count_pos_iff.mpr hm
        omega
      have hfilter : (List.range nh.length).filter (fun i => nh[i]? == some c) = [] := by
        rw [List.filter_eq_nil_iff]
        intro i _
        intro hcon
        rw [beq_iff_eq] at hcon
        exact hmem (List.getElem?_mem hcon)
      have hhead : ((y :: nh)[0]? == some c) = true := by
        rw [List.getElem?_cons_zero, hy]
        simp
      rw [if_pos hhead, hfilter]
      exact ⟨0, by simp, by rw [List.getElem?_cons_zero, hy]⟩
    · have hcnt : nh.count c = 1 := by
        simp [hy] at h
        omega
      obtain ⟨j, hj, hjv⟩ := ih hcnt
      have hhead : ¬ ((y :: nh)[0]? == some c) = true := by
        rw [List.getElem?_cons_zero]
        simp [hy]
      rw [if_neg hhead, hj]
      exact ⟨j + 1, by simp, by rw [List.getElem?_cons_succ]; exact hjv⟩

theorem flatMap_singletons (ls : List Label) (f : Label → List Nat)
    (h : ∀ c ∈ ls, ∃ j, f c = [j]) :
    (ls.flatMap f).length = ls.length ∧
    ∀ (i : Nat) (c : Label), ls[i]? = some c →
      ∃ j, (ls.flatMap f)[i]? = some j ∧ f c = [j] := by
  induction ls with
  | nil => exact ⟨rfl, by intro i c hc; simp at hc⟩
  | cons c cs ih =>
    obtain ⟨j, hj⟩ := h c (List.mem_cons_self c cs)
    obtain ⟨ihl, ihv⟩ := ih (fun x hx => h x (List.mem_cons_of_mem c hx))
    rw [List.flatMap_cons, hj]
    constructor
    · simp [ihl]
    · intro i d hd
      cases i with
      | zero =>
        rw [List.getElem?_cons_zero] at hd
        cases hd
        exact ⟨j, by rw [List.singleton_append, List.getElem?_cons_zero], hj⟩
      | succ i =>
        rw [List.getElem?_cons_succ] at hd
        obtain ⟨j', hj', hfj'⟩ := ihv i d hd
        exact ⟨j', by rw [List.singleton_append, List.getElem?_cons_succ]; exact hj', hfj'⟩

theorem columns_length : columns.length = 16 := rfl

theorem columns_lower_length : columns_lower.length = 16 := rfl

theorem missing_nil_count_pos {nh : List Label} (h : missing_cols nh = [])
    {c : Label} (hc : c ∈ columns_lower) : 1 ≤ nh.count c := by
  rw [missing_cols, List.filter_eq_nil_iff] at h
  have := h c hc
  simp at this
  exact List.count_pos_iff.mpr this

theorem length_le_sum_of_ones (l : List Nat) (h : ∀ x ∈ l, 1 ≤ x) :
    l.length ≤ l.sum := by
  induction l with
  | nil => simp
  | cons y ys ih =>
    rw [List.sum_cons, List.length_cons]
    have hy := h y (List.mem_cons_self y ys)
    have := ih (fun z hz => h z (List.mem_cons_of_mem y hz))
    omega

theorem sum_ones (l : List Nat) (h : ∀ x ∈ l, 1 ≤ x) :
    l.sum = l.length ↔ ∀ x ∈ l, x = 1 := by
  induction l with
  | nil => simp
  | cons x xs ih =>
    rw [List.sum_cons, List.length_cons]
    have hx := h x (List.mem_cons_self x xs)
    have ihx := ih (fun y hy => h y (List.mem_cons_of_mem x hy))
    have hsum : xs.length ≤ xs.sum :=
      length_le_sum_of_ones xs (fun y hy => h y (List.mem_cons_of_mem x hy))
    constructor
    · intro heq
      have hx1 : x = 1 := by omega
      have hxs : xs.sum = xs.length := by omega
      intro y hy
      rcases List.mem_cons.mp hy with h1 | h1
      · rw [h1]; exact hx1
      · exact ihx.mp hxs y h1
    · intro hall
      have hx1 : x = 1 := hall x (List.mem_cons_self x xs)
      have hxs : xs.sum = xs.length :=
        ihx.mpr (fun y hy => hall y (List.mem_cons_of_mem x hy))
      omega

theorem length_flatMap_sum (ls : List Label) (f : Label → List Nat) :
    (ls.flatMap f).length = (ls.map (fun c => (f c).length)).sum := by
  induction ls with
  | nil => rfl
  | cons c cs ih =>
    rw [List.flatMap_cons, List.length_append, List.map_cons, List.sum_cons, ih]

theorem selIdxs_length_sum (nh : List Label) :
    (selIdxs nh columns_lower).length =
      (columns_lower.map (fun c => nh.count c)).sum := by
  rw [selIdxs, length_flatMap_sum]
  exact congrArg List.sum (List.map_congr_left (fun c _ => range_filter_count nh c))

/-- Claim C2 (amended): for a table that passed validation and in which each
canonical label matches exactly one source column (no duplicated normalized
canonical label), the reorder step succeeds, its output header is literally
the 16 canonical labels in canonical order and casing (so non-canonical
columns are dropped), row count is preserved, and column `i` of the output
holds exactly the cells of the unique source column whose normalized label
is the `i`-th canonical label. -/
theorem c2_reorder_projection [Inhabited α] (df : Frame α) (hwf : df.WF)
    (hmiss : missing_cols (normalizeHeader df).header = [])
    (huniq : ∀ c ∈ columns_lower, (normalizeHeader df).header.count c ≤ 1) :
    ∃ out, reorderFrame (normalizeHeader df) = .ok out
      ∧ out.header = columns
      ∧ out.rows.length = df.rows.length
      ∧ ∀ (i j : Nat) (c : Label), columns_lower[i]? = some c →
          (normalizeHeader df).header[j]? = some c →
          colValues out i = colValues (normalizeHeader df) j := by
  set nh := (normalizeHeader df).header with hnh
  have hcount : ∀ c ∈ columns_lower, nh.count c = 1 := fun c hc =>
    Nat.le_antisymm (huniq c hc) (missing_nil_count_pos hmiss hc)
  have hsingle : ∀ c ∈ columns_lower,
      ∃ j, (List.range nh.length).filter (fun i => nh[i]? == some c) = [j] ∧
        nh[j]? = some c :=
    fun c hc => filter_single nh c (hcount c hc)
  obtain ⟨hlen, hval⟩ := flatMap_singletons columns_lower
    (fun l => (List.range nh.length).filter (fun i => nh[i]? == some l))
    (fun c hc => (hsingle c hc).imp (fun j hj => hj.1))
  have hlen16 : (selIdxs nh columns_lower).length = 16 := by
    rw [selIdxs, hlen, columns_lower_length]
  have hok : reorderFrame (normalizeHeader df) =
      .ok ⟨columns, (normalizeHeader df).rows.map
        (fun r => (selIdxs nh columns_lower).map (fun i => r.getD i default))⟩ := by
    rw [reorderFrame, setColumns]
    have hcond : columns.length = (selectCols (normalizeHeader df) columns_lower).header.length := by
      rw [selectCols]
      show columns.length = ((selIdxs nh columns_lower).map _).length
      rw [List.length_map, hlen16, columns_length]
    rw [if_pos hcond]
    rfl
  refine ⟨_, hok, rfl, ?_, ?_⟩
  · show ((normalizeHeader df).rows.map _).length = df.rows.length
    rw [List.length_map]
    rfl
  · intro i j c hci hcj
    have hcmem : c ∈ columns_lower := List.getElem?_mem hci
    obtain ⟨j', hj', hfj'⟩ := hval i c hci
    obtain ⟨j0, hj0f, hj0v⟩ := hsingle c hcmem
    have hjj : j ∈ (List.range nh.length).filter (fun i => nh[i]? == some c) := by
      rw [List.mem_filter]
      have hjlt : j < nh.length := by
        obtain ⟨h1, -⟩ := List.getElem?_eq_some.mp hcj
        exact h1
      exact ⟨List.mem_range.mpr hjlt, by rw [hcj]; simp⟩
    rw [hj0f] at hjj
    have hj0j : j = j0 := by simpa using hjj
    have hj'0 : j' = j0 := by
      rw [hj0f] at hfj'
      simpa using hfj'.symm
    have hidx : (selIdxs nh columns_lower)[i]? = some j := by
      rw [selIdxs, hj', hj'0, hj0j]
    have hjlt : j < nh.length := by
      obtain ⟨h1, -⟩ := List.getElem?_eq_some.mp hcj
      exact h1
    show ((normalizeHeader df).rows.map
        (fun r => (selIdxs nh columns_lower).map (fun i => r.getD i default))).map
          (fun r => r[i]?) =
      (normalizeHeader df).rows.map (fun r => r[j]?)
    rw [List.map_map]
    apply List.map_congr_left
    intro r hr
    have hrlen : r.length = nh.length := by
      have h1 : r.length = df.header.length := hwf r hr
      rw [hnh]
      show r.length = (df.header.map normalizeLabel).length
      rw [List.length_map]
      exact h1
    show ((selIdxs nh columns_lower).map (fun i => r.getD i default))[i]? = r[j]?
    rw [List.getElem?_map, hidx]
    have hjr : j < r.length := by omega
    rw [List.getElem?_eq_getElem hjr]
    show some (r.getD j default) = some r[j]
    rw [List.getD_eq_getElem?_getD, List.getElem?_eq_getElem hjr]
    rfl

theorem c2_reorder_projection_witness :
    exShuffled.WF
    ∧ missing_cols (normalizeHeader exShuffled).header = []
    ∧ (∀ c ∈ columns_lower, (normalizeHeader exShuffled).header.count c ≤ 1)
    ∧ (∃ out, reorderFrame (normalizeHeader exShuffled) = .ok out
        ∧ out.header = columns
        ∧ out.rows.length = exShuffled.rows.length
        ∧ ∀ (i j : Nat) (c : Label), columns_lower[i]? = some c →
            (normalizeHeader exShuffled).header[j]? = some c →
            colValues out i = colValues (normalizeHeader exShuffled) j) :=
  ⟨by unfold Frame.WF; decide, by decide, by decide,
   c2_reorder_projection exShuffled (by unfold Frame.WF; decide) (by decide) (by decide)⟩

/-- Claim C2 as literally stated is false on the code: `exDupDate` passes
validation (no missing columns) yet the reorder step raises a length
mismatch instead of producing the 16-column table, because its header
contains two columns normalizing to `"date"` and pandas selection returns
both. -/
theorem c2_reorder_projection_counterexample :
    missing_cols (normalizeHeader exDupDate).header = []
    ∧ reorderFrame (normalizeHeader exDupDate) = .error "Length mismatch" :=
  ⟨by decide, by rfl⟩

/-- Claim C6 (amended): for a table with no missing canonical columns, the
projection step completes if and only if every canonical label matches
exactly one source column; a duplicated normalized label that is canonical
makes the relabel step fail with a length mismatch (the selection returns
both duplicates), while duplicates among only non-canonical labels are
harmless. -/
theorem c6_duplicate_labels [Inhabited α] (df : Frame α)
    (hmiss : missing_cols (normalizeHeader df).header = []) :
    (∃ out, reorderFrame (normalizeHeader df) = .ok out) ↔
      ∀ c ∈ columns_lower, (normalizeHeader df).header.count c = 1 := by
  set nh := (normalizeHeader df).header with hnh
  have hgesum : ∀ x ∈ columns_lower.map (fun c => nh.count c), 1 ≤ x := by
    intro x hx
    obtain ⟨c, hc, rfl⟩ := List.mem_map.mp hx
    exact missing_nil_count_pos hmiss hc
  have hsel : (selectCols (normalizeHeader df) columns_lower).header.length =
      (columns_lower.map (fun c => nh.count c)).sum := by
    rw [selectCols]
    show ((selIdxs nh columns_lower).map _).length = _
    rw [List.length_map, selIdxs_length_sum]
  constructor
  · rintro ⟨out, hout⟩
    rw [reorderFrame, setColumns] at hout
    by_cases hcond : columns.length =
        (selectCols (normalizeHeader df) columns_lower).header.length
    · rw [hsel, columns_length] at hcond
      have hlenmap : (columns_lower.map (fun c => nh.count c)).length = 16 := by
        rw [List.length_map, columns_lower_length]
      have hall : ∀ x ∈ columns_lower.map (fun c => nh.count c), x = 1 :=
        (sum_ones _ hgesum).mp (by rw [hlenmap]; omega)
      intro c hc
      exact hall (nh.count c) (List.mem_map.mpr ⟨c, hc, rfl⟩)
    · rw [if_neg hcond] at hout
      simp at hout
  · intro hall
    have hsum : (columns_lower.map (fun c => nh.count c)).sum =
        (columns_lower.map (fun c => nh.count c)).length :=
      (sum_ones _ hgesum).mpr (by
        intro x hx
        obtain ⟨c, hc, rfl⟩ := List.mem_map.mp hx
        exact hall c hc)
    have hcond : columns.length =
        (selectCols (normalizeHeader df) columns_lower).header.length := by
      rw [hsel, hsum, List.length_map, columns_lower_length, columns_length]
    rw [reorderFrame, setColumns, if_pos hcond]
    exact ⟨_, rfl⟩

theorem c6_duplicate_labels_witness :
    (missing_cols (normalizeHeader exShuffled).header = [])
    ∧ ((∃ out, reorderFrame (normalizeHeader exShuffled) = .ok out) ↔
        ∀ c ∈ columns_lower, (normalizeHeader exShuffled).header.count c = 1) :=
  ⟨by decide, c6_duplicate_labels exShuffled (by decide)⟩

/-- Claim C6 as literally stated is false on the code: `exDupCanon` has two
source columns normalizing to `"external code"` (a duplicated normalized
label), passes validation, and yet the projection step raises a length
mismatch — the uncaught `ValueError` of app.py line 114 — instead of
completing with some choice of column. -/
theorem c6_duplicate_labels_counterexample :
    (normalizeHeader exDupCanon).header.count "external code".toList = 2
    ∧ missing_cols (normalizeHeader exDupCanon).header = []
    ∧ reorderFrame (normalizeHeader exDupCanon) = .error "Length mismatch" :=
  ⟨by decide, by decide, by rfl⟩

/-! ### Batch coordinator -/

theorem reorderFrame_rows_length [Inhabited α] {df out : Frame α}
    (h : reorderFrame df = .ok out) : out.rows.length = df.rows.length := by
  rw [reorderFrame, setColumns] at h
  split at h
  · injection h with h2
    rw [← h2]
    show (selectCols df columns_lower).rows.length = df.rows.length
    rw [selectCols]
    exact List.length_map _ _
  · simp at h

theorem reorderLoop_ok [Inhabited α] :
    ∀ (files : List (Label × Frame α))
      {outs : List (Label × FileOutcome)} {dfs : List (Frame α)},
      reorderLoop files = .ok (outs, dfs) →
      dfs = mergedSurvivors files
      ∧ outs = files.map (fun p =>
          (p.1, if missing_cols (normalizeHeader p.2).header = []
                then FileOutcome.merged
                else FileOutcome.missingColumns (missing_cols (normalizeHeader p.2).header)))
      ∧ dfs.map (fun f => f.rows.length) =
          (mergedSources files).map (fun p => p.2.rows.length) := by
  intro files
  induction files with
  | nil =>
    intro outs dfs h
    simp only [reorderLoop] at h
    injection h with h1
    obtain ⟨houts, hdfs⟩ := Prod.mk.injEq _ _ _ _ |>.mp h1
    subst houts
    subst hdfs
    exact ⟨rfl, rfl, rfl⟩
  | cons p rest ih =>
    obtain ⟨file, df⟩ := p
    intro outs dfs h
    simp only [reorderLoop] at h
    split at h
    · next hm =>
      split at h
      · simp at h
      · next rdf hrf =>
        split at h
        · simp at h
        · next outs' dfs' hrl =>
          injection h with h1
          obtain ⟨houts, hdfs⟩ := Prod.mk.injEq _ _ _ _ |>.mp h1
          obtain ⟨ihs, iho, ihl⟩ := ih hrl
          have hsur : mergedSurvivors ((file, df) :: rest) = rdf :: mergedSurvivors rest := by
            simp [mergedSurvivors, List.filterMap_cons, hm, hrf, Except.toOption]
          have hsrc : mergedSources ((file, df) :: rest) = (file, df) :: mergedSources rest := by
            simp [mergedSources, List.filter_cons, hm]
          have hrdf : rdf.rows.length = df.rows.length :=
            @reorderFrame_rows_length _ _ (normalizeHeader df) rdf hrf
          refine ⟨?_, ?_, ?_⟩
          · rw [← hdfs, ihs, hsur]
          · rw [← houts, iho]
            simp [hm]
          · rw [← hdfs, hsrc]
            show rdf.rows.length :: dfs'.map (fun f => f.rows.length) =
              df.rows.length :: (mergedSources rest).map (fun p => p.2.rows.length)
            rw [hrdf, ihl]
    · next hm =>
      split at h
      · simp at h
      · next outs' dfs' hrl =>
        injection h with h1
        obtain ⟨houts, hdfs⟩ := Prod.mk.injEq _ _ _ _ |>.mp h1
        obtain ⟨ihs, iho, ihl⟩ := ih hrl
        have hsur : mergedSurvivors ((file, df) :: rest) = mergedSurvivors rest := by
          simp [mergedSurvivors, List.filterMap_cons, hm]
        have hsrc : mergedSources ((file, df) :: rest) = mergedSources rest := by
          simp [mergedSources, List.filter_cons, hm]
        refine ⟨?_, ?_, ?_⟩
        · rw [← hdfs, ihs, hsur]
        · rw [← houts, iho]
          simp [hm]
        · rw [← hdfs, hsrc]
          exact ihl

theorem concatFrames_rows {dfs : List (Frame α)} (h : dfs ≠ []) :
    (concatFrames dfs).rows = (dfs.map Frame.rows).flatten := by
  cases dfs with
  | nil => exact absurd rfl h
  | cons d ds => rfl

/-- `mergeBatch` laid out over its named stages. -/
theorem mergeBatch_eq [Inhabited α] (inputs : List (Label × FileData α)) :
    mergeBatch inputs =
      if inputs.isEmpty then .ok .emptyZip
      else if (validFiles inputs).isEmpty then .ok (.noValidFiles (readFailures inputs))
      else match reorderLoop (validFiles inputs) with
        | .error e => .error e
        | .ok (outs, dfs) =>
          if dfs.isEmpty then .ok (.noCompleteColumns (readFailures inputs ++ outs))
          else .ok (.merged (concatFrames dfs) (readFailures inputs ++ outs)) := rfl

/-- Claim C7: the merged table is the concatenation, in input order, of the
projected tables of the files that reached the `merged` outcome, each
table's row order preserved; hence its row count is the sum of the row
counts of those source tables. -/
theorem c7_merge_concatenation [Inhabited α] (inputs : List (Label × FileData α))
    (mdf : Frame α) (log : List (Label × FileOutcome))
    (h : mergeBatch inputs = .ok (.merged mdf log)) :
    mdf.rows = ((mergedSurvivors (validFiles inputs)).map Frame.rows).flatten
    ∧ mdf.rows.length =
        ((mergedSources (validFiles inputs)).map (fun p => p.2.rows.length)).sum := by
  rw [mergeBatch_eq] at h
  split at h
  · simp at h
  · split at h
    · simp at h
    · split at h
      · simp at h
      · next outs dfs hrl =>
        split at h
        · simp at h
        · next hde =>
          injection h with h1
          injection h1 with h2 h3
          obtain ⟨ihs, -, ihl⟩ := reorderLoop_ok (validFiles inputs) hrl
          have hne : dfs ≠ [] := by
            intro hc
            rw [hc] at hde
            simp at hde
          constructor
          · rw [← h2, concatFrames_rows hne, ihs]
          · rw [← h2, concatFrames_rows hne, List.length_flatten, List.map_map]
            have h4 : dfs.map (List.length ∘ Frame.rows) =
                dfs.map (fun f => f.rows.length) := rfl
            rw [h4, ihl]

theorem c7_merge_concatenation_witness :
    exMerged.rows = ((mergedSurvivors (validFiles exInputs)).map Frame.rows).flatten
    ∧ exMerged.rows.length =
        ((mergedSources (validFiles exInputs)).map (fun p => p.2.rows.length)).sum :=
  c7_merge_concatenation exInputs exMerged exLog (by rfl)

theorem readFailures_all_content {inputs : List (Label × FileData α)}
    (h : ∀ p ∈ inputs, ∃ df, p.2 = FileData.content df) :
    readFailures inputs = [] := by
  induction inputs with
  | nil => rfl
  | cons p rest ih =>
    obtain ⟨df, hdf⟩ := h p (List.mem_cons_self p rest)
    have htail := ih (fun q hq => h q (List.mem_cons_of_mem p hq))
    rw [readFailures, List.filterMap_cons]
    rw [hdf]
    split
    · exact htail
    · next heq =>
      split at heq
      · simp at heq
      · simp at heq

theorem validFiles_cons_content {p : Label × FileData α} {rest : List (Label × FileData α)}
    {df : Frame α} (hsup : isSupported p.1 = true) (hdf : p.2 = FileData.content df) :
    validFiles (p :: rest) = (p.1, df) :: validFiles rest := by
  rw [validFiles, List.filterMap_cons, hdf]
  simp [hsup, validFiles]

theorem validFiles_mem_missing {inputs : List (Label × FileData α)}
    (h : ∀ p ∈ inputs, ∃ df, p.2 = FileData.content df ∧
      missing_cols (normalizeHeader df).header ≠ []) :
    ∀ q ∈ validFiles inputs, missing_cols (normalizeHeader q.2).header ≠ [] := by
  intro q hq
  obtain ⟨p, hp, hfp⟩ := List.mem_filterMap.mp hq
  obtain ⟨df, hdf, hm⟩ := h p hp
  rw [hdf] at hfp
  by_cases hsup : isSupported p.1 = true
  · rw [if_pos hsup] at hfp
    injection hfp with h1
    rw [← h1]
    exact hm
  · rw [if_neg hsup] at hfp
    simp at hfp

theorem reorderLoop_all_missing [Inhabited α] {files : List (Label × Frame α)}
    (h : ∀ q ∈ files, missing_cols (normalizeHeader q.2).header ≠ []) :
    reorderLoop files = .ok
      (files.map (fun q =>
        (q.1, FileOutcome.missingColumns (missing_cols (normalizeHeader q.2).header))), []) := by
  induction files with
  | nil => rfl
  | cons q rest ih =>
    obtain ⟨file, df⟩ := q
    have hm := h (file, df) (List.mem_cons_self _ rest)
    have htail := ih (fun r hr => h r (List.mem_cons_of_mem _ hr))
    simp only [reorderLoop]
    rw [if_neg hm, htail]
    rfl

/-- Claim C9: if every input file is supported and readable and every table
is missing at least one canonical column, the coordinator produces no
merged table and reports the batch-level "no files with complete columns"
condition, while the outcome log still gives each file its own (non-empty)
missing-columns outcome. -/
theorem c9_all_invalid [Inhabited α] (inputs : List (Label × FileData α))
    (hne : inputs ≠ [])
    (hsup : ∀ p ∈ inputs, isSupported p.1 = true)
    (hcontent : ∀ p ∈ inputs, ∃ df, p.2 = FileData.content df ∧
      missing_cols (normalizeHeader df).header ≠ []) :
    ∃ log, mergeBatch inputs = .ok (.noCompleteColumns log)
      ∧ log ≠ []
      ∧ ∀ q ∈ log, ∃ m, m ≠ [] ∧ q.2 = FileOutcome.missingColumns m := by
  have hrf : readFailures inputs = [] :=
    readFailures_all_content (fun p hp => ⟨(hcontent p hp).choose, (hcontent p hp).choose_spec.1⟩)
  have hvne : validFiles inputs ≠ [] := by
    cases hx : inputs with
    | nil => exact absurd hx hne
    | cons p rest =>
      obtain ⟨df, hdf, -⟩ := hcontent p (hx ▸ List.mem_cons_self p rest)
      rw [validFiles_cons_content (hsup p (hx ▸ List.mem_cons_self p rest)) hdf]
      simp
  have hmiss : ∀ q ∈ validFiles inputs, missing_cols (normalizeHeader q.2).header ≠ [] :=
    validFiles_mem_missing hcontent
  have hrl := reorderLoop_all_missing hmiss
  refine ⟨(validFiles inputs).map (fun q =>
    (q.1, FileOutcome.missingColumns (missing_cols (normalizeHeader q.2).header))), ?_, ?_, ?_⟩
  · rw [mergeBatch_eq]
    rw [if_neg (by simp [List.isEmpty_iff, hne]), if_neg (by simp [List.isEmpty_iff, hvne]),
      hrl, hrf]
    rfl
  · simp [hvne]
  · intro q hq
    obtain ⟨p, hp, rfl⟩ := List.mem_map.mp hq
    exact ⟨missing_cols (normalizeHeader p.2).header, hmiss p hp, rfl⟩

theorem c9_all_invalid_witness :
    ("b.xlsx".toList, FileData.content exMissing) :: ([] : List (Label × FileData Nat)) ≠ []
    ∧ (∃ log, mergeBatch [("b.xlsx".toList, FileData.content exMissing)] =
        .ok (.noCompleteColumns log)
      ∧ log ≠ []
      ∧ ∀ q ∈ log, ∃ m, m ≠ [] ∧ q.2 = FileOutcome.missingColumns m) :=
  ⟨by simp,
   c9_all_invalid [("b.xlsx".toList, FileData.content exMissing)] (by simp)
     (by intro p hp; simp at hp; rw [hp]; decide)
     (by
       intro p hp
       simp at hp
       exact ⟨exMissing, by rw [hp], by decide⟩)⟩

/-! ### Extension dispatch -/

theorem toLower_beq_low (c d : Char) (hd : d.toNat < 65) :
    (Char.toLower c == d) = (c == d) := by
  rw [Bool.eq_iff_iff, beq_iff_eq, beq_iff_eq, char_eq_iff_toNat, char_eq_iff_toNat,
    toNat_toLower]
  split
  · next h => omega
  · exact Iff.rfl

theorem pathName_map_toLower (s : Label) :
    pathName (s.map Char.toLower) = (pathName s).map Char.toLower := by
  have h1 : ((fun c => c == '/') ∘ Char.toLower) = (fun c => c == '/') :=
    funext fun c => toLower_beq_low c '/' (by decide)
  have h2 : ((fun c => !(c == '/')) ∘ Char.toLower) = (fun c => !(c == '/')) :=
    funext fun c => by
      show (!(Char.toLower c == '/')) = (!(c == '/'))
      rw [toLower_beq_low c '/' (by decide)]
  rw [pathName, pathName, ← List.map_reverse, List.dropWhile_map, h1,
    List.takeWhile_map, h2, ← List.map_reverse]

theorem pySuffix_map_toLower (s : Label) :
    pySuffix (s.map Char.toLower) = (pySuffix s).map Char.toLower := by
  have h3 : ((fun c => !(c == '.')) ∘ Char.toLower) = (fun c => !(c == '.')) :=
    funext fun c => by
      show (!(Char.toLower c == '.')) = (!(c == '.'))
      rw [toLower_beq_low c '.' (by decide)]
  simp only [pySuffix]
  rw [pathName_map_toLower, ← List.map_reverse, List.takeWhile_map, h3]
  simp only [List.length_map]
  split
  · next h =>
    rw [← List.map_reverse, List.map_cons]
    have hdot : Char.toLower '.' = '.' := by decide
    rw [hdot]
  · rfl

/-- Claim C10: extension dispatch is case-insensitive — the decision for a
filename equals the decision for its lower-cased form, and in particular
`"DATA.CSV"` and `"Data.XLSX"` are parsed rather than skipped. -/
theorem c10_extension_case_insensitive :
    (∀ s : Label, isSupported (s.map Char.toLower) = isSupported s)
    ∧ isSupported "DATA.CSV".toList = true
    ∧ isSupported "Data.XLSX".toList = true := by
  refine ⟨fun s => ?_, by decide, by decide⟩
  simp only [isSupported]
  rw [pySuffix_map_toLower, List.map_map]
  have hcomp : Char.toLower ∘ Char.toLower = Char.toLower := funext toLower_idem
  rw [hcomp]

/-! ### Per-file failures do not abort the batch -/

theorem insertAt_succ_cons (k : Nat) (x c : γ) (l : List γ) :
    insertAt (k + 1) x (c :: l) = c :: insertAt k x l := rfl

theorem insertAt_length_self (x : γ) (l : List γ) :
    insertAt l.length x l = l ++ [x] := by
  rw [insertAt, List.take_length, List.drop_length]

theorem insertAt_append_left (a : List γ) (k : Nat) (x : γ) (b : List γ) :
    insertAt (a.length + k) x (a ++ b) = a ++ insertAt k x b := by
  induction a with
  | nil =>
    rw [List.length_nil, Nat.zero_add, List.nil_append, List.nil_append]
  | cons c a ih =>
    have h1 : (c :: a).length + k = (a.length + k) + 1 := by
      rw [List.length_cons]
      omega
    rw [h1, List.cons_append, insertAt_succ_cons, ih, List.cons_append]

theorem insertAt_append_mid (a : List γ) (x : γ) (b : List γ) :
    insertAt a.length x (a ++ b) = a ++ x :: b := by
  have h := insertAt_append_left a 0 x b
  rw [Nat.add_zero] at h
  rw [h]
  rfl

theorem exceptMap_map (x : Except ε α) (f : α → β) (g : β → γ) :
    (x.map f).map g = x.map (g ∘ f) := by
  cases x <;> rfl

theorem reorderLoop_insert [Inhabited α] {df : Frame α} (n : Label)
    (hm : missing_cols (normalizeHeader df).header ≠ []) :
    ∀ (vpre vpost : List (Label × Frame α)),
      reorderLoop (vpre ++ (n, df) :: vpost) =
        (reorderLoop (vpre ++ vpost)).map (fun r =>
          (insertAt vpre.length
            (n, FileOutcome.missingColumns (missing_cols (normalizeHeader df).header)) r.1,
           r.2)) := by
  intro vpre
  induction vpre with
  | nil =>
    intro vpost
    rw [List.nil_append, List.nil_append]
    simp only [reorderLoop]
    rw [if_neg hm]
    cases hrl : reorderLoop vpost with
    | error e => rfl
    | ok pr =>
      obtain ⟨outs, dfs⟩ := pr
      rfl
  | cons q vpre ih =>
    intro vpost
    obtain ⟨qn, qdf⟩ := q
    rw [List.cons_append, List.cons_append]
    simp only [reorderLoop]
    by_cases hq : missing_cols (normalizeHeader qdf).header = []
    · rw [if_pos hq, if_pos hq]
      cases hqr : reorderFrame (normalizeHeader qdf) with
      | error e => rfl
      | ok rdf =>
        rw [ih vpost]
        cases hrl : reorderLoop (vpre ++ vpost) with
        | error e => rfl
        | ok pr =>
          obtain ⟨outs, dfs⟩ := pr
          rfl
    · rw [if_neg hq, if_neg hq]
      rw [ih vpost]
      cases hrl : reorderLoop (vpre ++ vpost) with
      | error e => rfl
      | ok pr =>
        obtain ⟨outs, dfs⟩ := pr
        rfl

/-- Claim C8: a per-file failure — an unreadable file, or a table with
missing canonical columns — is recorded as that file's outcome and does not
abort the batch: the merged frame (and error behavior) is the same as for
the batch without that file, every other file still being processed, and
the outcome log is the same log with that file's outcome inserted at its
position. -/
theorem c8_partial_failure [Inhabited α] :
    (∀ (pre post : List (Label × FileData α)) (n : Label),
      isSupported n = true →
      ((mergeBatch (pre ++ (n, FileData.unreadable) :: post)).map batchFrame =
        (mergeBatch (pre ++ post)).map batchFrame)
      ∧ ((mergeBatch (pre ++ (n, FileData.unreadable) :: post)).map batchLog =
          (mergeBatch (pre ++ post)).map (fun r =>
            insertAt (readFailures pre).length (n, FileOutcome.readFailure) (batchLog r))))
    ∧ (∀ (pre post : List (Label × FileData α)) (n : Label) (df : Frame α),
      isSupported n = true →
      missing_cols (normalizeHeader df).header ≠ [] →
      ((mergeBatch (pre ++ (n, FileData.content df) :: post)).map batchFrame =
        (mergeBatch (pre ++ post)).map batchFrame)
      ∧ ((mergeBatch (pre ++ (n, FileData.content df) :: post)).map batchLog =
          (mergeBatch (pre ++ post)).map (fun r =>
            insertAt ((readFailures (pre ++ post)).length + (validFiles pre).length)
              (n, FileOutcome.missingColumns (missing_cols (normalizeHeader df).header))
              (batchLog r)))) := by
  constructor
  · intro pre post n hsupn
    have hvv : validFiles (pre ++ (n, FileData.unreadable) :: post) =
        validFiles pre ++ validFiles post := by
      simp [validFiles, List.filterMap_append, List.filterMap_cons, hsupn]
    have hvv2 : validFiles (pre ++ post) = validFiles pre ++ validFiles post := by
      simp [validFiles, List.filterMap_append]
    have hrr : readFailures (pre ++ (n, FileData.unreadable) :: post) =
        readFailures pre ++ (n, FileOutcome.readFailure) :: readFailures post := by
      simp [readFailures, List.filterMap_append, List.filterMap_cons, hsupn]
    have hrr2 : readFailures (pre ++ post) = readFailures pre ++ readFailures post := by
      simp [readFailures, List.filterMap_append]
    have hne1 : ¬((pre ++ (n, FileData.unreadable) :: post).isEmpty = true) := by simp
    by_cases hpp : pre ++ post = []
    · obtain ⟨hpre, hpost⟩ := List.append_eq_nil.mp hpp
      subst hpre
      subst hpost
      constructor
      · rw [mergeBatch_eq, mergeBatch_eq]
        rw [if_neg hne1]
        rw [hvv]
        rfl
      · rw [mergeBatch_eq, mergeBatch_eq]
        rw [if_neg hne1]
        rw [hvv, hrr]
        rfl
    · have hne2 : ¬((pre ++ post).isEmpty = true) := by simp [List.isEmpty_iff, hpp]
      by_cases hve : (validFiles pre ++ validFiles post).isEmpty = true
      · constructor
        · rw [mergeBatch_eq, mergeBatch_eq, if_neg hne1, if_neg hne2, hvv, hvv2,
            if_pos hve, if_pos hve]
          rfl
        · rw [mergeBatch_eq, mergeBatch_eq, if_neg hne1, if_neg hne2, hvv, hvv2,
            if_pos hve, if_pos hve, hrr, hrr2]
          show Except.ok (batchLog (BatchResult.noValidFiles (α := α)
              (readFailures pre ++ (n, FileOutcome.readFailure) :: readFailures post))) = _
          simp only [batchLog, Except.map]
          rw [insertAt_append_mid]
      · constructor
        · rw [mergeBatch_eq, mergeBatch_eq, if_neg hne1, if_neg hne2, hvv, hvv2,
            if_neg hve, if_neg hve]
          cases hrl : reorderLoop (validFiles pre ++ validFiles post) with
          | error e => rfl
          | ok pr =>
            obtain ⟨outs, dfs⟩ := pr
            by_cases hde : dfs.isEmpty = true <;>
              simp [hde, batchFrame, Except.map]
        · rw [mergeBatch_eq, mergeBatch_eq, if_neg hne1, if_neg hne2, hvv, hvv2,
            if_neg hve, if_neg hve, hrr, hrr2]
          cases hrl : reorderLoop (validFiles pre ++ validFiles post) with
          | error e => rfl
          | ok pr =>
            obtain ⟨outs, dfs⟩ := pr
            by_cases hde : dfs.isEmpty = true <;>
              simp [hde, batchLog, Except.map, insertAt_append_mid]
  · intro pre post n df hsupn hm
    have hvv : validFiles (pre ++ (n, FileData.content df) :: post) =
        validFiles pre ++ (n, df) :: validFiles post := by
      simp [validFiles, List.filterMap_append, List.filterMap_cons, hsupn]
    have hvv2 : validFiles (pre ++ post) = validFiles pre ++ validFiles post := by
      simp [validFiles, List.filterMap_append]
    have hrr2 : readFailures (pre ++ post) = readFailures pre ++ readFailures post := by
      simp [readFailures, List.filterMap_append]
    have hrr : readFailures (pre ++ (n, FileData.content df) :: post) =
        readFailures (pre ++ post) := by
      rw [hrr2]
      simp [readFailures, List.filterMap_append, List.filterMap_cons, hsupn]
    have hne1 : ¬((pre ++ (n, FileData.content df) :: post).isEmpty = true) := by simp
    have hveL : ¬((validFiles pre ++ (n, df) :: validFiles post).isEmpty = true) := by simp
    have hloop := reorderLoop_insert n hm (validFiles pre) (validFiles post)
    by_cases hpp : pre ++ post = []
    · obtain ⟨hpre, hpost⟩ := List.append_eq_nil.mp hpp
      subst hpre
      subst hpost
      have hv0 : validFiles ([] : List (Label × FileData α)) = [] := rfl
      have hr0 : readFailures ([] : List (Label × FileData α)) = [] := rfl
      constructor
      · rw [mergeBatch_eq, mergeBatch_eq, if_neg hne1, hvv, hv0, if_neg (by simp)]
        rw [List.nil_append]
        simp only [reorderLoop]
        rw [if_neg hm]
        rfl
      · rw [mergeBatch_eq, mergeBatch_eq, if_neg hne1, hvv, hv0, if_neg (by simp)]
        rw [List.nil_append]
        simp only [reorderLoop]
        rw [if_neg hm]
        have hr1 : readFailures ([] ++ [(n, FileData.content df)]) = [] := by
          simp [readFailures, hsupn]
        rw [hr1]
        rfl
    · have hne2 : ¬((pre ++ post).isEmpty = true) := by simp [List.isEmpty_iff, hpp]
      by_cases hve : (validFiles pre ++ validFiles post).isEmpty = true
      · obtain ⟨hp1, hp2⟩ := List.append_eq_nil.mp (List.isEmpty_iff.mp hve)
        constructor
        · rw [mergeBatch_eq, mergeBatch_eq, if_neg hne1, if_neg hne2, hvv, hvv2, hp1, hp2,
            if_neg (by simp), if_pos (by simp)]
          rw [List.nil_append]
          simp only [reorderLoop]
          rw [if_neg hm]
          rfl
        · rw [mergeBatch_eq, mergeBatch_eq, if_neg hne1, if_neg hne2, hvv, hvv2, hp1, hp2,
            if_neg (by simp), if_pos (by simp)]
          rw [List.nil_append]
          simp only [reorderLoop]
          rw [if_neg hm, hrr]
          show Except.ok (readFailures (pre ++ post) ++
              [(n, FileOutcome.missingColumns (missing_cols (normalizeHeader df).header))]) =
            Except.ok (insertAt
              ((readFailures (pre ++ post)).length + ([] : List (Label × Frame α)).length)
              (n, FileOutcome.missingColumns (missing_cols (normalizeHeader df).header))
              (readFailures (pre ++ post)))
          rw [List.length_nil, Nat.add_zero, insertAt_length_self]
      · constructor
        · rw [mergeBatch_eq, mergeBatch_eq, if_neg hne1, if_neg hne2, hvv, hvv2,
            if_neg hveL, if_neg hve, hloop]
          cases hrl : reorderLoop (validFiles pre ++ validFiles post) with
          | error e => rfl
          | ok pr =>
            obtain ⟨outs, dfs⟩ := pr
            by_cases hde : dfs.isEmpty = true <;>
              simp [hde, batchFrame, Except.map]
        · rw [mergeBatch_eq, mergeBatch_eq, if_neg hne1, if_neg hne2, hvv, hvv2,
            if_neg hveL, if_neg hve, hloop, hrr]
          cases hrl : reorderLoop (validFiles pre ++ validFiles post) with
          | error e => rfl
          | ok pr =>
            obtain ⟨outs, dfs⟩ := pr
            by_cases hde : dfs.isEmpty = true <;>
              simp [hde, batchLog, Except.map, insertAt_append_left]

theorem c8_partial_failure_witness :
    (isSupported "bad.xls".toList = true
      ∧ missing_cols (normalizeHeader exMissing).header ≠ [])
    ∧ ((mergeBatch (exPre ++ ("bad.xls".toList, FileData.unreadable) :: exPost)).map batchFrame
        = (mergeBatch (exPre ++ exPost)).map batchFrame)
    ∧ ((mergeBatch (exPre ++ ("m.csv".toList, FileData.content exMissing) :: exPost)).map batchLog
        = (mergeBatch (exPre ++ exPost)).map (fun r =>
            insertAt ((readFailures (exPre ++ exPost)).length + (validFiles exPre).length)
              ("m.csv".toList, FileOutcome.missingColumns
                (missing_cols (normalizeHeader exMissing).header))
              (batchLog r))) :=
  ⟨⟨by decide, by decide⟩,
   (c8_partial_failure.1 exPre exPost "bad.xls".toList (by decide)).1,
   (c8_partial_failure.2 exPre exPost "m.csv".toList exMissing (by decide) (by decide)).2⟩

end App
